import Mathlib

/-!
Shallow embedding of the clearnet deep-research-agent crawler
(`src/crawler.py`, `src/agent.py`, `src/knowledge_base.py`) and proofs of the
spec claims about it.

Conventions of the embedding:
* Python strings are modelled as Lean `String` (lists of characters / code
  points); `s[:n]` is `pyTake n s`.
* `urllib.parse.urlparse` / `urljoin` are modelled by `urlparse` / `urljoin`
  below, faithful for the URL shapes the crawler handles (no dot-segment
  normalization, no userinfo/port splitting).  The essential semantic fact —
  the fragment is split off at the first `#`, so the `path` component never
  contains `#` — is preserved and proved (`urlparse_path_no_hash`).
* BeautifulSoup's lenient `html.parser` is modelled by `parseHtml`, a total
  tokenizer that recovers a flat, document-ordered list of elements with
  their attributes and immediate following text.  Element nesting is
  flattened (each element carries only the text directly after its open
  tag); no claim depends on nested-text semantics.
* Network access is an explicit oracle (`World`): `fetch` for page GETs,
  `robots` for robots.txt fetch+parse (a parsed robots file is modelled as
  its `can_fetch` predicate `String → Bool`).
* Fallible Python code (exceptions) returns `Except`.
* The `while` loop of `ClearnetCrawler.crawl` is run on explicit fuel;
  every invariant below is proved for all fuel values.
* The crawler state carries an event trace (`Event`) recording dequeues,
  visited-set insertions, robots.txt fetches and page fetch attempts, so
  that temporal claims (visited-before-fetch, BFS order, cache behaviour)
  are statable.
-/

namespace CrawlSpec

/-! ## Generic character-list utilities -/

/-- Split a character list at the first occurrence of `c`.
Returns `(before, some after)` when `c` occurs (neither part contains
that occurrence), `(l, none)` otherwise. -/
def splitOnFirst (c : Char) : List Char → List Char × Option (List Char)
  | [] => ([], none)
  | x :: xs =>
    if x = c then ([], some xs)
    else
      let r := splitOnFirst c xs
      (x :: r.1, r.2)

/-- Python `s[:n]` on a string (code-point slice). -/
def pyTake (n : Nat) (s : String) : String := String.mk (s.toList.take n)

/-! ## Model of `urllib.parse.urlparse` and `urljoin` -/

structure ParsedUrl where
  scheme : String
  netloc : String
  path : String
  query : String
  fragment : String
deriving DecidableEq

/-- Characters allowed in a URL scheme (letters, digits, `+`, `-`, `.`),
as in `urllib.parse`. -/
def isSchemeChar (ch : Char) : Bool :=
  ch.isAlpha || ch.isDigit || ch == '+' || ch == '-' || ch == '.'

/-- Split off the fragment at the first `#` (the fragment is everything
after it). -/
def splitFragment (cs : List Char) : List Char × List Char :=
  match splitOnFirst '#' cs with
  | (before, some after) => (before, after)
  | (before, none) => (before, [])

/-- Split off a leading `scheme:` when the part before the first `:` is a
nonempty run of scheme characters, as `urllib.parse` does. -/
def splitScheme (cs : List Char) : List Char × List Char :=
  match splitOnFirst ':' cs with
  | (before, some after) =>
    if !before.isEmpty && before.all isSchemeChar then (before, after) else ([], cs)
  | (_, none) => ([], cs)

/-- Split off a leading `//netloc` (up to the next `/` or `?`), as
`urllib.parse` does when `url[:2] == "//"`. -/
def splitNetloc (cs : List Char) : List Char × List Char :=
  if cs.take 2 = ['/', '/'] then
    let r := cs.drop 2
    let n := r.takeWhile (fun ch => !(ch == '/') && !(ch == '?'))
    (n, r.drop n.length)
  else ([], cs)

/-- Split off the query at the first `?`. -/
def splitQuery (cs : List Char) : List Char × List Char :=
  match splitOnFirst '?' cs with
  | (before, some after) => (before, after)
  | (before, none) => (before, [])

/-- Model of `urllib.parse.urlparse`. -/
def urlparse (s : String) : ParsedUrl :=
  let p1 := splitFragment s.toList
  let p2 := splitScheme p1.1
  let p3 := splitNetloc p2.2
  let p4 := splitQuery p3.2
  { scheme := String.mk (p2.1.map Char.toLower)
    netloc := String.mk p3.1
    path := String.mk p4.1
    query := String.mk p4.2
    fragment := String.mk p1.2 }

/-- Keep the base path up to and including its last `/`. -/
def pathDirname (p : List Char) : List Char :=
  (p.reverse.dropWhile (fun ch => !(ch == '/'))).reverse

/-- Model of `urllib.parse.urljoin` for the reference shapes the crawler
produces: absolute references, network-path (`//`), absolute-path (`/`),
fragment-only (`#`) and plain relative references.  Dot segments are not
normalized. -/
def urljoin (base rel : String) : String :=
  if rel = "" then base
  else if (urlparse rel).scheme ≠ "" then rel
  else
    let b := urlparse base
    match rel.toList with
    | '/' :: '/' :: _ => b.scheme ++ ":" ++ rel
    | '/' :: _ => b.scheme ++ "://" ++ b.netloc ++ rel
    | '#' :: _ =>
      b.scheme ++ "://" ++ b.netloc ++ b.path ++
        (if b.query = "" then "" else "?" ++ b.query) ++ rel
    | _ =>
      b.scheme ++ "://" ++ b.netloc ++ String.mk (pathDirname b.path.toList) ++ rel

/-! ## Model of BeautifulSoup (`html.parser`) documents -/

/-- One parsed element: lowercased tag name, attribute list (document
order, bare attributes get value `""` as in BeautifulSoup), and the text
immediately following the open tag. -/
structure Elem where
  tag : String
  attrs : List (String × String)
  text : String
deriving DecidableEq

/-- Attribute value after `=`: double-quoted, single-quoted or bare. -/
def parseAttrValue : List Char → String × List Char
  | '"' :: r =>
    (match splitOnFirst '"' r with
     | (v, some rest) => (String.mk v, rest)
     | (v, none) => (String.mk v, []))
  | '\'' :: r =>
    (match splitOnFirst '\'' r with
     | (v, some rest) => (String.mk v, rest)
     | (v, none) => (String.mk v, []))
  | r =>
    let v := r.takeWhile (fun ch => !ch.isWhitespace && !(ch == '>') && !(ch == '/'))
    (String.mk v, r.drop v.length)

/-- Parse the attributes of an open tag, consuming up to and including the
closing `>`.  Fuel guarantees totality on adversarial input. -/
def parseAttrs : Nat → List Char → List (String × String) × List Char
  | 0, r => ([], r)
  | fuel + 1, r =>
    let r1 := r.dropWhile (fun ch => ch.isWhitespace || ch == '/')
    match r1 with
    | [] => ([], [])
    | '>' :: rest => ([], rest)
    | _ =>
      let name := r1.takeWhile
        (fun ch => !ch.isWhitespace && !(ch == '=') && !(ch == '>') && !(ch == '/'))
      let r2 := (r1.drop name.length).dropWhile (fun ch => ch.isWhitespace)
      match r2 with
      | '=' :: r3 =>
        let r4 := r3.dropWhile (fun ch => ch.isWhitespace)
        let pv := parseAttrValue r4
        let pa := parseAttrs fuel pv.2
        ((String.mk (name.map Char.toLower), pv.1) :: pa.1, pa.2)
      | _ =>
        let pa := parseAttrs fuel r2
        ((String.mk (name.map Char.toLower), "") :: pa.1, pa.2)

/-- Lenient tokenizer: recover a flat, document-ordered element list from
arbitrary input (model of `BeautifulSoup(html, "html.parser")`; closing
tags, comments, doctypes and processing instructions are skipped). -/
def parseElems : Nat → List Char → List Elem
  | 0, _ => []
  | fuel + 1, cs =>
    match splitOnFirst '<' cs with
    | (_, none) => []
    | (_, some r) =>
      match r with
      | [] => []
      | '/' :: r2 => parseElems fuel ((splitOnFirst '>' r2).2.getD [])
      | '!' :: r2 => parseElems fuel ((splitOnFirst '>' r2).2.getD [])
      | '?' :: r2 => parseElems fuel ((splitOnFirst '>' r2).2.getD [])
      | _ =>
        let name := r.takeWhile
          (fun ch => !ch.isWhitespace && !(ch == '>') && !(ch == '/'))
        if name.isEmpty then parseElems fuel ((splitOnFirst '>' r).2.getD [])
        else
          let pa := parseAttrs (r.length + 1) (r.drop name.length)
          let text := pa.2.takeWhile (fun ch => !(ch == '<'))
          { tag := String.mk (name.map Char.toLower)
            attrs := pa.1
            text := String.mk text } :: parseElems fuel (pa.2.drop text.length)

def parseHtml (s : String) : List Elem := parseElems (s.length + 1) s.toList

/-- BeautifulSoup `tag[name]` presence / `tag.get(name)`: first binding of
the attribute. -/
def getAttr (e : Elem) (a : String) : Option String := e.attrs.lookup a

/-- `soup.find(t)`: first element with the given tag. -/
def findTag (doc : List Elem) (t : String) : Option Elem :=
  doc.find? (fun e => e.tag == t)

/-- `soup.find("meta", attrs={"name": n})`. -/
def findMetaNamed (doc : List Elem) (n : String) : Option Elem :=
  doc.find? (fun e => e.tag == "meta" && getAttr e "name" == some n)

/-! ## Crawler configuration (`ClearnetCrawler.__init__`) -/

/-- Crawler configuration after mode resolution.  Delay bounds are carried
for fidelity; `time.sleep` is semantically a no-op in the embedding. -/
structure Config where
  respect_robots : Bool
  crawl_depth : Nat
  link_limit : Nat
  mode : String
  delay_min : Nat
  delay_max : Nat

/-- `ClearnetCrawler.__init__`: mode-specific resolution of link limit,
crawl depth and delay range. -/
def mkCrawler (respect_robots : Bool) (crawl_depth link_limit : Nat) (mode : String) :
    Config :=
  if mode = "exploratory" then
    { respect_robots, crawl_depth, link_limit := min (link_limit * 2) 20, mode
      delay_min := 1, delay_max := 3 }
  else if mode = "deep_dive" then
    { respect_robots, crawl_depth := min (crawl_depth + 2) 10, link_limit, mode
      delay_min := 2, delay_max := 4 }
  else if mode = "stealth" then
    { respect_robots, crawl_depth, link_limit, mode, delay_min := 3, delay_max := 7 }
  else
    { respect_robots, crawl_depth, link_limit, mode, delay_min := 2, delay_max := 4 }

/-! ## Content extraction (`ClearnetCrawler.extract_content`) -/

/-- The page-data dictionary built by `extract_content` (resources and
metadata sub-dicts flattened into fields). -/
structure PageData where
  content : String
  links : List String
  images : List String
  scripts : List String
  stylesheets : List String
  title : String
  description : String
  keywords : String
deriving DecidableEq

/-- The link filter of `extract_content`: internal host (or no host),
http/https scheme, and no `#` in the parsed path. -/
def qualifies (base_domain : String) (link : String) : Bool :=
  let p := urlparse link
  (p.netloc == base_domain || p.netloc == "") &&
  (p.scheme == "http" || p.scheme == "https") &&
  !(p.path.toList.contains '#')

/-- The `for a_tag in soup.find_all("a", href=True)` accumulation loop of
`extract_content` (inputs are the anchor elements in document order). -/
def linkLoop (url base_domain : String) : List Elem → List String
  | [] => []
  | e :: rest =>
    let link := urljoin url ((getAttr e "href").getD "")
    if qualifies base_domain link then link :: linkLoop url base_domain rest
    else linkLoop url base_domain rest

/-- `soup.find_all("a", href=True)`. -/
def anchorTags (doc : List Elem) : List Elem :=
  doc.filter (fun e => e.tag == "a" && (getAttr e "href").isSome)

/-- `soup.find("meta", attrs={"name": n})` followed by the subscript
`[...]["content"]`: a tag found without a `content` attribute raises
`KeyError` in the Python code (the guard only checks tag presence). -/
def metaContent (doc : List Elem) (n : String) : Except String String :=
  match findMetaNamed doc n with
  | some m =>
    match getAttr m "content" with
    | some v => Except.ok v
    | none => Except.error "KeyError: content"
  | none => Except.ok ""

/-- `ClearnetCrawler.extract_content(url, html)`.  Returns `Except` because
the metadata extraction can raise `KeyError` (see `metaContent`); the
`title.string = None` case is modelled as the title text. -/
def extract_content (cfg : Config) (url : String) (html : String) :
    Except String PageData :=
  let soup := parseHtml html
  let text_elements := soup.filter
    (fun e => ["p", "h1", "h2", "h3", "h4", "h5", "h6", "li", "span", "div"].contains e.tag)
  let text_content := String.intercalate " "
    (((text_elements.map (fun e => e.text.trim)).filter (fun t => t != "")))
  let base_domain := (urlparse url).netloc
  let links := (linkLoop url base_domain (anchorTags soup)).take cfg.link_limit
  let images := (soup.filter (fun e => e.tag == "img" && (getAttr e "src").isSome)).map
    (fun e => urljoin url ((getAttr e "src").getD ""))
  let scripts := (soup.filter (fun e => e.tag == "script" && (getAttr e "src").isSome)).map
    (fun e => urljoin url ((getAttr e "src").getD ""))
  let stylesheets := (soup.filter (fun e =>
      e.tag == "link" && getAttr e "rel" == some "stylesheet" &&
        (getAttr e "href").isSome)).map
    (fun e => urljoin url ((getAttr e "href").getD ""))
  let title := match findTag soup "title" with
    | some t => t.text
    | none => "No title"
  match metaContent soup "description" with
  | Except.error e => Except.error e
  | Except.ok description =>
    match metaContent soup "keywords" with
    | Except.error e => Except.error e
    | Except.ok keywords =>
      Except.ok { content := text_content, links, images, scripts, stylesheets,
                  title, description, keywords }

/-! ## Network oracle and event traces -/

/-- Result of `requests.get`: a status code with a body, or a transport
error (an exception raised by `requests`). -/
inductive FetchResult where
  | ok : Nat → String → FetchResult
  | err : FetchResult

/-- The external network: page fetches, and robots.txt fetch+parse per
origin.  A parsed robots file is its `can_fetch(user_agent, ·)` predicate
(the user agent is the crawler's fixed string); `Except.error` is any
exception raised by `RobotFileParser.read`. -/
structure World where
  fetch : String → FetchResult
  robots : String → Except Unit (String → Bool)

/-- Observable crawler events, in program order. -/
inductive Event where
  | dequeue : String → Nat → Event
  | visit : String → Event
  | robotsFetch : String → Event
  | fetchAttempt : String → Event
deriving DecidableEq

/-- The robots cache `self.robots_cache`, keyed by origin. -/
def Cache := List (String × (String → Bool))

/-! ## Robots policy (`ClearnetCrawler.is_allowed`) -/

/-- `ClearnetCrawler.is_allowed(url)`: returns the verdict, the updated
cache, and the robots.txt fetches performed.  Note the code caches the
parser only on a successful `read()`; on an exception it returns `True`
without caching. -/
def is_allowed (w : World) (cfg : Config) (cache : Cache) (url : String) :
    Bool × Cache × List Event :=
  if cfg.respect_robots = false then (true, cache, [])
  else
    let p := urlparse url
    let base_url := p.scheme ++ "://" ++ p.netloc
    match List.lookup base_url cache with
    | some rp => (rp url, cache, [])
    | none =>
      match w.robots base_url with
      | Except.ok rp => (rp url, (base_url, rp) :: cache, [Event.robotsFetch base_url])
      | Except.error _ => (true, cache, [Event.robotsFetch base_url])

/-- A sequence of `is_allowed` calls within one crawler session, starting
from a given cache; returns the final cache and all events. -/
def runSession (w : World) (cfg : Config) : Cache → List String → Cache × List Event
  | cache, [] => (cache, [])
  | cache, u :: rest =>
    let r := is_allowed w cfg cache u
    let s := runSession w cfg r.2.1 rest
    (s.1, r.2.2 ++ s.2)

/-! ## The crawl loop (`ClearnetCrawler.crawl_url` / `crawl`) -/

/-- Mutable crawler state: `self.visited_urls`, `self.robots_cache`, plus
the instrumentation trace. -/
structure St where
  visited : List String
  cache : Cache
  trace : List Event

/-- `ClearnetCrawler.crawl_url(url, depth)`: returns the updated state and
the `{url: data}` dictionary (empty on any skip or failure).  The politeness
delay is a semantic no-op. -/
def crawl_url (w : World) (cfg : Config) (st : St) (url : String) (depth : Nat) :
    St × List (String × PageData) :=
  if depth > cfg.crawl_depth ∨ url ∈ st.visited then (st, [])
  else
    let st1 : St := ⟨url :: st.visited, st.cache, st.trace ++ [Event.visit url]⟩
    let a := is_allowed w cfg st1.cache url
    let st2 : St := ⟨st1.visited, a.2.1, st1.trace ++ a.2.2⟩
    if a.1 = false then (st2, [])
    else
      let st3 : St := ⟨st2.visited, st2.cache, st2.trace ++ [Event.fetchAttempt url]⟩
      match w.fetch url with
      | FetchResult.err => (st3, [])
      | FetchResult.ok status body =>
        if status ≠ 200 then (st3, [])
        else
          match extract_content cfg url body with
          | Except.error _ => (st3, [])
          | Except.ok data => (st3, [(url, data)])

/-- The `while queue:` loop of `crawl`, with explicit fuel.  `results` is
the accumulated dictionary, `queue` the BFS frontier of `(url, depth)`
pairs; `queue.pop(0)` / `queue.append` give FIFO order. -/
def crawlLoop (w : World) (cfg : Config) :
    Nat → St → List (String × PageData) → List (String × Nat) →
    St × List (String × PageData)
  | 0, st, res, _ => (st, res)
  | _ + 1, st, res, [] => (st, res)
  | fuel + 1, st, res, (url, depth) :: rest =>
    let st0 : St := ⟨st.visited, st.cache, st.trace ++ [Event.dequeue url depth]⟩
    if url ∈ st0.visited ∨ depth > cfg.crawl_depth then
      crawlLoop w cfg fuel st0 res rest
    else
      let p := crawl_url w cfg st0 url depth
      let res1 := res ++ p.2
      match p.2 with
      | [] => crawlLoop w cfg fuel p.1 res1 rest
      | (_, d) :: _ =>
        crawlLoop w cfg fuel p.1 res1
          (rest ++ (d.links.filter (fun l => l ∉ p.1.visited)).map (fun l => (l, depth + 1)))

/-- `ClearnetCrawler.crawl(seed_url)`: fresh visited set and results, the
robots cache persists from the session (`cache` argument). -/
def crawl (w : World) (cfg : Config) (cache : Cache) (fuel : Nat) (seed_url : String) :
    St × List (String × PageData) :=
  crawlLoop w cfg fuel ⟨[], cache, []⟩ [] [(seed_url, 0)]

/-! ## Trace observations -/

/-- Number of page-fetch attempts (HTTP GETs) for `u` in a trace. -/
def fetchCount : List Event → String → Nat
  | [], _ => 0
  | Event.fetchAttempt v :: rest, u => (if v = u then 1 else 0) + fetchCount rest u
  | _ :: rest, u => fetchCount rest u

/-- Number of robots.txt fetches for origin `o` in a trace. -/
def robotsFetchCount : List Event → String → Nat
  | [], _ => 0
  | Event.robotsFetch v :: rest, o => (if v = o then 1 else 0) + robotsFetchCount rest o
  | _ :: rest, o => robotsFetchCount rest o

/-- Visited-before-fetch check: scanning the trace left to right, every
page-fetch attempt is for a URL whose visited-set insertion has already
been recorded (`vs` accumulates insertions seen so far). -/
def vbfAux : List Event → List String → Bool
  | [], _ => true
  | Event.fetchAttempt u :: rest, vs => vs.contains u && vbfAux rest vs
  | Event.visit u :: rest, vs => vbfAux rest (u :: vs)
  | _ :: rest, vs => vbfAux rest vs

/-- The accumulator of `vbfAux` after a trace. -/
def visitsAcc : List Event → List String → List String
  | [], vs => vs
  | Event.visit u :: rest, vs => visitsAcc rest (u :: vs)
  | _ :: rest, vs => visitsAcc rest vs

/-- Depths of dequeue events, in order. -/
def dequeueDepths : List Event → List Nat
  | [] => []
  | Event.dequeue _ d :: rest => d :: dequeueDepths rest
  | _ :: rest => dequeueDepths rest

/-- URLs of visited-set insertions, in order. -/
def visitList : List Event → List String
  | [] => []
  | Event.visit u :: rest => u :: visitList rest
  | _ :: rest => visitList rest

/-! ## Link reachability (for the depth bound) -/

/-- The fetch of `url` fails in world `w`: transport error, non-200
status, or HTTP 200 whose body makes extraction raise. -/
def fetchFails (w : World) (cfg : Config) (url : String) : Prop :=
  match w.fetch url with
  | FetchResult.err => True
  | FetchResult.ok s b => s ≠ 200 ∨ ∃ e, extract_content cfg url b = Except.error e

/-- `u` links to `v` in world `w`: fetching `u` succeeds with HTTP 200 and
`v` is among the extracted internal links of the page. -/
def LinksTo (w : World) (cfg : Config) (u v : String) : Prop :=
  ∃ b pd, w.fetch u = FetchResult.ok 200 b ∧
    extract_content cfg u b = Except.ok pd ∧ v ∈ pd.links

/-- `Reach w cfg seed u n`: a link path of length `n` from the seed to `u`. -/
inductive Reach (w : World) (cfg : Config) (seed : String) : String → Nat → Prop
  | refl : Reach w cfg seed seed 0
  | step {u v : String} {n : Nat} :
      Reach w cfg seed u n → LinksTo w cfg u v → Reach w cfg seed v (n + 1)

/-! ## Research agent (`ResearchAgent.analyze` / `_prepare_context`) and the
knowledge base (`KnowledgeBase.query`) -/

/-- One entry of the list `KnowledgeBase.query` returns: the document text
and the `url` key of its metadata, when present.  The `distance` field is
never read by the agent and is omitted. -/
structure RelevantDoc where
  text : String
  url : Option String
deriving DecidableEq

/-- One page summary of the context (`_prepare_context`). -/
structure PageSummary where
  url : String
  title : String
  content_preview : String
  num_links : Nat
deriving DecidableEq

/-- The JSON context handed to the report generator; each relevant
document becomes a `(truncated text, source)` pair. -/
structure Context where
  query : String
  num_pages : Nat
  pages : List PageSummary
  relevant_documents : List (String × String)
deriving DecidableEq

/-- The raw answer of `chromadb`'s `collection.query` (first query slot):
document texts with per-document metadata `url` entries. -/
structure ChromaResult where
  documents : List String
  metadatas : List (Option String)

/-- `KnowledgeBase.query(query_text, n_results)`: any exception from the
underlying store (`chroma q n = none`) degrades to `[]`; metadata at index
`i` is used when present, `{}` otherwise. -/
def kb_query (chroma : String → Nat → Option ChromaResult) (q : String) (n : Nat) :
    List RelevantDoc :=
  match chroma q n with
  | none => []
  | some res =>
    res.documents.enum.map (fun p =>
      { text := p.2
        url := match res.metadatas.get? p.1 with
               | some m => m
               | none => none })

/-- `ResearchAgent._prepare_context(query, crawled_data, relevant_docs)`. -/
def prepare_context (q : String) (crawled_data : List (String × PageData))
    (relevant_docs : List RelevantDoc) : Context :=
  { query := q
    num_pages := crawled_data.length
    pages := (crawled_data.take 10).map (fun p =>
      { url := p.1
        title := p.2.title
        content_preview :=
          if p.2.content.length > 500 then pyTake 500 p.2.content ++ "..."
          else p.2.content
        num_links := p.2.links.length })
    relevant_documents := relevant_docs.map (fun d =>
      (if d.text.length > 1000 then pyTake 1000 d.text ++ "..." else d.text,
       d.url.getD "Unknown source")) }

/-- The context-building part of `ResearchAgent.analyze`: queries the
knowledge base with `n_results=5` and prepares the context. -/
def analyze_context (chroma : String → Nat → Option ChromaResult) (q : String)
    (crawled_data : List (String × PageData)) : Context :=
  prepare_context q crawled_data (kb_query chroma q 5)

/-! ## Concrete worlds and inputs (used by witnesses and counterexamples) -/

def bodyS : String := "<a href=\"/a\">x</a><a href=\"/b\">y</a>"
def bodyA : String := "<a href=\"/c\">z</a>"

/-- A four-page site: the seed links to `/a` and `/b`, and `/a` links to
`/c`; all other pages are empty. -/
def wSite : World :=
  { fetch := fun u =>
      if u = "https://s.test/" then FetchResult.ok 200 bodyS
      else if u = "https://s.test/a" then FetchResult.ok 200 bodyA
      else FetchResult.ok 200 ""
    robots := fun _ => Except.error () }

/-- A world whose robots.txt endpoint always fails (e.g. times out). -/
def wRobotsDown : World :=
  { fetch := fun _ => FetchResult.ok 200 ""
    robots := fun _ => Except.error () }

/-- A world of empty pages. -/
def wEmptySite : World :=
  { fetch := fun _ => FetchResult.ok 200 ""
    robots := fun _ => Except.ok (fun _ => true) }

/-- A world where every page fetch returns HTTP 404. -/
def wAll404 : World :=
  { fetch := fun _ => FetchResult.ok 404 ""
    robots := fun _ => Except.ok (fun _ => true) }

/-- Stealth mode keeps the configured depth and link limit unchanged. -/
def cfgNoRobots : Config := mkCrawler false 3 5 "stealth"

def cfgRobots : Config := mkCrawler true 3 5 "stealth"

/-- `extract_content` of the empty page. -/
def emptyPage : PageData := ⟨"", [], [], [], [], "No title", "", ""⟩

/-- `extract_content` of the seed page of `wSite`. -/
def pageS : PageData :=
  ⟨"", ["https://s.test/a", "https://s.test/b"], [], [], [], "No title", "", ""⟩

/-- A 501-character page content. -/
def longContent : String := String.mk (List.replicate 501 'a')

def page501 : PageData := { emptyPage with content := longContent }

/-- A knowledge store whose every query raises (degrades to `[]`). -/
def chromaNone : String → Nat → Option ChromaResult := fun _ _ => none

/-! ## Lemmas: `urlparse` components -/

theorem splitOnFirst_fst_not_mem (c : Char) (l : List Char) :
    c ∉ (splitOnFirst c l).1 := by
  induction l with
  | nil => simp [splitOnFirst]
  | cons x xs ih =>
    by_cases hx : x = c
    · simp [splitOnFirst, hx]
    · simp only [splitOnFirst, if_neg hx, List.mem_cons]
      rintro (h | h)
      · exact hx h.symm
      · exact ih h

/-- `splitOnFirst` decomposes its input. -/
theorem splitOnFirst_decomp (c : Char) (l : List Char) :
    l = (splitOnFirst c l).1 ++
      (match (splitOnFirst c l).2 with | none => [] | some b => c :: b) := by
  induction l with
  | nil => simp [splitOnFirst]
  | cons x xs ih =>
    by_cases hx : x = c
    · simp [splitOnFirst, hx]
    · simp only [splitOnFirst, if_neg hx, List.cons_append, List.cons.injEq, true_and]
      exact ih

theorem splitOnFirst_fst_subset {c x : Char} {l : List Char}
    (hx : x ∈ (splitOnFirst c l).1) : x ∈ l := by
  conv => rw [splitOnFirst_decomp c l]
  exact List.mem_append_left _ hx

theorem splitOnFirst_snd_subset {c x : Char} {l b : List Char}
    (h : (splitOnFirst c l).2 = some b) (hx : x ∈ b) : x ∈ l := by
  conv => rw [splitOnFirst_decomp c l]
  rw [h]
  exact List.mem_append_right _ (List.mem_cons_of_mem _ hx)

theorem splitFragment_fst_not_hash (cs : List Char) :
    '#' ∉ (splitFragment cs).1 := by
  have h := splitOnFirst_fst_not_mem '#' cs
  unfold splitFragment
  rcases hs : splitOnFirst '#' cs with ⟨before, after⟩
  cases after <;> simpa [hs] using h

theorem splitScheme_snd_subset {x : Char} {cs : List Char}
    (hx : x ∈ (splitScheme cs).2) : x ∈ cs := by
  unfold splitScheme at hx
  rcases hs : splitOnFirst ':' cs with ⟨before, after⟩
  cases after with
  | none => simpa [hs] using hx
  | some b =>
    simp only [hs] at hx
    by_cases hc : (!before.isEmpty && before.all isSchemeChar) = true
    · rw [if_pos hc] at hx
      exact splitOnFirst_snd_subset (b := b) (by rw [hs]) hx
    · rw [if_neg hc] at hx
      exact hx

theorem splitNetloc_snd_subset {x : Char} {cs : List Char}
    (hx : x ∈ (splitNetloc cs).2) : x ∈ cs := by
  unfold splitNetloc at hx
  by_cases h2 : cs.take 2 = ['/', '/']
  · rw [if_pos h2] at hx
    exact List.mem_of_mem_drop (List.mem_of_mem_drop hx)
  · rw [if_neg h2] at hx
    exact hx

theorem splitQuery_fst_subset {x : Char} {cs : List Char}
    (hx : x ∈ (splitQuery cs).1) : x ∈ cs := by
  unfold splitQuery at hx
  rcases hs : splitOnFirst '?' cs with ⟨before, after⟩
  have hb : before = (splitOnFirst '?' cs).1 := by rw [hs]
  cases after with
  | none =>
    simp only [hs] at hx
    exact splitOnFirst_fst_subset (hb ▸ hx)
  | some b =>
    simp only [hs] at hx
    exact splitOnFirst_fst_subset (hb ▸ hx)

/-- The `path` component of a parsed URL never contains `#`: `urlparse`
puts everything after the first `#` into the `fragment` component. -/
theorem urlparse_path_no_hash (s : String) : '#' ∉ (urlparse s).path.toList := by
  intro hmem
  have h1 : '#' ∈ (splitQuery (splitNetloc (splitScheme (splitFragment s.toList).1).2).2).1 := hmem
  have h2 := splitQuery_fst_subset h1
  have h3 := splitNetloc_snd_subset h2
  have h4 := splitScheme_snd_subset h3
  exact splitFragment_fst_not_hash s.toList h4

/-! ## Lemmas: trace observers -/

theorem fetchCount_append (a b : List Event) (u : String) :
    fetchCount (a ++ b) u = fetchCount a u + fetchCount b u := by
  induction a with
  | nil => simp [fetchCount]
  | cons e rest ih =>
    cases e with
    | fetchAttempt v => simp [fetchCount, ih, Nat.add_assoc]
    | visit v => simp [fetchCount, ih]
    | robotsFetch o => simp [fetchCount, ih]
    | dequeue v d => simp [fetchCount, ih]

theorem robotsFetchCount_append (a b : List Event) (o : String) :
    robotsFetchCount (a ++ b) o = robotsFetchCount a o + robotsFetchCount b o := by
  induction a with
  | nil => simp [robotsFetchCount]
  | cons e rest ih =>
    cases e with
    | robotsFetch v => simp [robotsFetchCount, ih, Nat.add_assoc]
    | visit v => simp [robotsFetchCount, ih]
    | fetchAttempt v => simp [robotsFetchCount, ih]
    | dequeue v d => simp [robotsFetchCount, ih]

theorem dequeueDepths_append (a b : List Event) :
    dequeueDepths (a ++ b) = dequeueDepths a ++ dequeueDepths b := by
  induction a with
  | nil => simp [dequeueDepths]
  | cons e rest ih =>
    cases e with
    | dequeue v d => simp [dequeueDepths, ih]
    | visit v => simp [dequeueDepths, ih]
    | fetchAttempt v => simp [dequeueDepths, ih]
    | robotsFetch o => simp [dequeueDepths, ih]

theorem visitList_append (a b : List Event) :
    visitList (a ++ b) = visitList a ++ visitList b := by
  induction a with
  | nil => simp [visitList]
  | cons e rest ih =>
    cases e with
    | visit v => simp [visitList, ih]
    | dequeue v d => simp [visitList, ih]
    | fetchAttempt v => simp [visitList, ih]
    | robotsFetch o => simp [visitList, ih]

theorem fetchCount_robots_only {l : List Event}
    (h : ∀ e ∈ l, ∃ o, e = Event.robotsFetch o) (u : String) :
    fetchCount l u = 0 := by
  induction l with
  | nil => rfl
  | cons e rest ih =>
    obtain ⟨o, ho⟩ := h e (List.mem_cons_self e rest)
    subst ho
    exact ih (fun x hx => h x (List.mem_cons_of_mem _ hx))

theorem dequeueDepths_robots_only {l : List Event}
    (h : ∀ e ∈ l, ∃ o, e = Event.robotsFetch o) :
    dequeueDepths l = [] := by
  induction l with
  | nil => rfl
  | cons e rest ih =>
    obtain ⟨o, ho⟩ := h e (List.mem_cons_self e rest)
    subst ho
    exact ih (fun x hx => h x (List.mem_cons_of_mem _ hx))

theorem visitsAcc_robots_only {l : List Event}
    (h : ∀ e ∈ l, ∃ o, e = Event.robotsFetch o) (vs : List String) :
    visitsAcc l vs = vs := by
  induction l with
  | nil => rfl
  | cons e rest ih =>
    obtain ⟨o, ho⟩ := h e (List.mem_cons_self e rest)
    subst ho
    exact ih (fun x hx => h x (List.mem_cons_of_mem _ hx))

theorem vbfAux_robots_only {l : List Event}
    (h : ∀ e ∈ l, ∃ o, e = Event.robotsFetch o) (vs : List String) :
    vbfAux l vs = true := by
  induction l with
  | nil => rfl
  | cons e rest ih =>
    obtain ⟨o, ho⟩ := h e (List.mem_cons_self e rest)
    subst ho
    exact ih (fun x hx => h x (List.mem_cons_of_mem _ hx))

theorem vbfAux_append (a b : List Event) (vs : List String) :
    vbfAux (a ++ b) vs = (vbfAux a vs && vbfAux b (visitsAcc a vs)) := by
  induction a generalizing vs with
  | nil => simp [vbfAux, visitsAcc]
  | cons e rest ih =>
    cases e with
    | visit u => simp [vbfAux, visitsAcc, ih]
    | fetchAttempt u => simp [vbfAux, visitsAcc, ih, Bool.and_assoc]
    | dequeue u d => simp [vbfAux, visitsAcc, ih]
    | robotsFetch o => simp [vbfAux, visitsAcc, ih]

/-- The event block a non-skipped `crawl_url` call appends passes the
visited-before-fetch check under any accumulator: the visited-set
insertion for `url` precedes its fetch attempt inside the block. -/
theorem vbfAux_chunk (url : String) (revs fp : List Event) (vs : List String)
    (hrevs : ∀ e ∈ revs, ∃ o, e = Event.robotsFetch o)
    (hfp : fp = [] ∨ fp = [Event.fetchAttempt url]) :
    vbfAux (Event.visit url :: (revs ++ fp)) vs = true := by
  show vbfAux (revs ++ fp) (url :: vs) = true
  rw [vbfAux_append, vbfAux_robots_only hrevs, visitsAcc_robots_only hrevs]
  rcases hfp with h | h <;> subst h
  · rfl
  · simp [vbfAux, List.contains]

/-! ## Lemmas: link extraction -/

theorem linkLoop_eq (url bd : String) (es : List Elem) :
    linkLoop url bd es =
      (es.map (fun e => urljoin url ((getAttr e "href").getD ""))).filter
        (qualifies bd) := by
  induction es with
  | nil => rfl
  | cons e rest ih =>
    simp only [linkLoop, List.map_cons, List.filter_cons]
    by_cases h : qualifies bd (urljoin url ((getAttr e "href").getD "")) = true
    · rw [if_pos h]
      simp [h, ih]
    · rw [if_neg h]
      simp only [Bool.not_eq_true] at h
      simp [h, ih]

/-- Every successful extraction records exactly the first `link_limit`
qualifying internal links of the page, in document order. -/
theorem extract_ok_links {cfg : Config} {url b : String} {pd : PageData}
    (h : extract_content cfg url b = Except.ok pd) :
    pd.links =
      (linkLoop url (urlparse url).netloc (anchorTags (parseHtml b))).take
        cfg.link_limit := by
  simp only [extract_content] at h
  split at h
  · exact Except.noConfusion h
  · split at h
    · exact Except.noConfusion h
    · injection h with h
      subst h
      rfl

/-! ## Lemmas: robots policy -/

theorem is_allowed_events {w : World} {cfg : Config} {cache : Cache} {url : String} :
    ∀ e ∈ (is_allowed w cfg cache url).2.2, ∃ o, e = Event.robotsFetch o := by
  simp only [is_allowed]
  split
  · simp
  · split
    · simp
    · split
      · intro e he
        simp only [List.mem_singleton] at he
        exact ⟨_, he⟩
      · intro e he
        simp only [List.mem_singleton] at he
        exact ⟨_, he⟩

/-- How one `is_allowed` call affects the robots fetches for, and cache
entry of, a fixed origin `o`: either it does not fetch for `o` and leaves
`o`'s cache entry unchanged, or it fetches `o` exactly once, `o` was
uncached, and a successful fetch caches the parsed result. -/
theorem is_allowed_robots_spec (w : World) (cfg : Config) (cache : Cache)
    (url o : String) :
    (robotsFetchCount (is_allowed w cfg cache url).2.2 o = 0 ∧
      List.lookup o (is_allowed w cfg cache url).2.1 = List.lookup o cache) ∨
    (robotsFetchCount (is_allowed w cfg cache url).2.2 o = 1 ∧
      List.lookup o cache = none ∧
      (∀ r, w.robots o = Except.ok r →
        List.lookup o (is_allowed w cfg cache url).2.1 = some r)) := by
  simp only [is_allowed]
  split
  · exact Or.inl ⟨rfl, rfl⟩
  · split
    · exact Or.inl ⟨rfl, rfl⟩
    · rename_i hmiss
      split
      · rename_i rp hrp
        by_cases ho : (urlparse url).scheme ++ "://" ++ (urlparse url).netloc = o
        · refine Or.inr ⟨by simp [robotsFetchCount, ho], by rw [← ho]; exact hmiss, ?_⟩
          intro r hr
          rw [ho] at hrp
          rw [hrp] at hr
          injection hr with hr
          rw [ho, hr]
          simp only [List.lookup, beq_self_eq_true]
        · refine Or.inl ⟨by simp [robotsFetchCount, ho], ?_⟩
          have hne : (o == (urlparse url).scheme ++ "://" ++ (urlparse url).netloc) = false := by
            rw [beq_eq_false_iff_ne]
            intro hcontra
            exact ho hcontra.symm
          simp only [List.lookup, hne]
      · by_cases ho : (urlparse url).scheme ++ "://" ++ (urlparse url).netloc = o
        · refine Or.inr ⟨by simp [robotsFetchCount, ho], by rw [← ho]; exact hmiss, ?_⟩
          intro r hr
          rename_i herr
          rw [ho] at herr
          rw [herr] at hr
          exact Except.noConfusion hr
        · exact Or.inl ⟨by simp [robotsFetchCount, ho], rfl⟩

/-- Within one session starting from a cache without an entry for origin
`o`, if the robots fetch+parse for `o` succeeds, at most one robots.txt
fetch for `o` is performed across any sequence of `is_allowed` calls. -/
theorem runSession_robots_once {w : World} {cfg : Config} {o : String}
    {r : String → Bool} (hw : w.robots o = Except.ok r) :
    ∀ (urls : List String) (cache : Cache),
      (List.lookup o cache = none →
        robotsFetchCount (runSession w cfg cache urls).2 o ≤ 1) ∧
      ((∃ r0, List.lookup o cache = some r0) →
        robotsFetchCount (runSession w cfg cache urls).2 o = 0) := by
  intro urls
  induction urls with
  | nil =>
    intro cache
    exact ⟨fun _ => by simp [runSession, robotsFetchCount],
           fun _ => by simp [runSession, robotsFetchCount]⟩
  | cons u rest ih =>
    intro cache
    have hspec := is_allowed_robots_spec w cfg cache u o
    constructor
    · intro hnone
      simp only [runSession]
      rw [robotsFetchCount_append]
      rcases hspec with ⟨hc0, hcache⟩ | ⟨hc1, _, hok⟩
      · have hrest := (ih (is_allowed w cfg cache u).2.1).1 (by rw [hcache]; exact hnone)
        omega
      · have hrest := (ih (is_allowed w cfg cache u).2.1).2 ⟨r, hok r hw⟩
        omega
    · rintro ⟨r0, hsome⟩
      simp only [runSession]
      rw [robotsFetchCount_append]
      rcases hspec with ⟨hc0, hcache⟩ | ⟨_, hnone2, _⟩
      · have hrest := (ih (is_allowed w cfg cache u).2.1).2 ⟨r0, by rw [hcache]; exact hsome⟩
        omega
      · rw [hsome] at hnone2
        exact Option.noConfusion hnone2

/-! ## Lemmas: `crawl_url` characterization -/

theorem crawl_url_skip {w : World} {cfg : Config} {st : St} {url : String} {depth : Nat}
    (h : depth > cfg.crawl_depth ∨ url ∈ st.visited) :
    crawl_url w cfg st url depth = (st, []) := by
  unfold crawl_url
  rw [if_pos h]

/-- Shape of a non-skipped `crawl_url` call: the URL is added to the
visited set, the trace grows by its visited-set insertion, then any
robots.txt fetches, then at most one page-fetch attempt (for this URL);
the returned dictionary is empty or `{url: pd}` with `pd` the successful
extraction of the fetched body. -/
theorem crawl_url_go {w : World} {cfg : Config} {st : St} {url : String} {depth : Nat}
    (h : ¬(depth > cfg.crawl_depth ∨ url ∈ st.visited)) :
    ∃ c2 revs fp data,
      crawl_url w cfg st url depth =
        (⟨url :: st.visited, c2, st.trace ++ Event.visit url :: (revs ++ fp)⟩, data) ∧
      (∀ e ∈ revs, ∃ o, e = Event.robotsFetch o) ∧
      (fp = [] ∨ fp = [Event.fetchAttempt url]) ∧
      (data = [] ∨ ∃ pd b, data = [(url, pd)] ∧
        w.fetch url = FetchResult.ok 200 b ∧
        extract_content cfg url b = Except.ok pd) := by
  simp only [crawl_url, if_neg h]
  by_cases hok : (is_allowed w cfg st.cache url).1 = false
  · rw [if_pos hok]
    refine ⟨(is_allowed w cfg st.cache url).2.1, (is_allowed w cfg st.cache url).2.2,
      [], [], ?_, is_allowed_events, Or.inl rfl, Or.inl rfl⟩
    simp
  · rw [if_neg hok]
    cases hf : w.fetch url with
    | err =>
      refine ⟨(is_allowed w cfg st.cache url).2.1, (is_allowed w cfg st.cache url).2.2,
        [Event.fetchAttempt url], [], ?_, is_allowed_events, Or.inr rfl, Or.inl rfl⟩
      simp
    | ok s b =>
      dsimp only
      by_cases hs : s ≠ 200
      · rw [if_pos hs]
        refine ⟨(is_allowed w cfg st.cache url).2.1, (is_allowed w cfg st.cache url).2.2,
          [Event.fetchAttempt url], [], ?_, is_allowed_events, Or.inr rfl, Or.inl rfl⟩
        simp
      · rw [if_neg hs]
        push_neg at hs
        subst hs
        cases he : extract_content cfg url b with
        | error e =>
          refine ⟨(is_allowed w cfg st.cache url).2.1, (is_allowed w cfg st.cache url).2.2,
            [Event.fetchAttempt url], [], ?_, is_allowed_events, Or.inr rfl, Or.inl rfl⟩
          simp
        | ok pd =>
          refine ⟨(is_allowed w cfg st.cache url).2.1, (is_allowed w cfg st.cache url).2.2,
            [Event.fetchAttempt url], [(url, pd)], ?_, is_allowed_events, Or.inr rfl,
            Or.inr ⟨pd, b, rfl, rfl, he⟩⟩
          simp

/-! ## Lemmas: the crawl loop -/

theorem crawlLoop_visited_mono (w : World) (cfg : Config) :
    ∀ (fuel : Nat) (st : St) (res : List (String × PageData)) (q : List (String × Nat)),
      st.visited ⊆ (crawlLoop w cfg fuel st res q).1.visited := by
  intro fuel
  induction fuel with
  | zero => intro st res q; exact fun a ha => ha
  | succ fuel ih =>
    intro st res q
    rcases q with _ | ⟨⟨url, depth⟩, rest⟩
    · exact fun a ha => ha
    · simp only [crawlLoop]
      by_cases hskip : url ∈ st.visited ∨ depth > cfg.crawl_depth
      · rw [if_pos hskip]
        exact ih ⟨st.visited, st.cache, st.trace ++ [Event.dequeue url depth]⟩ res rest
      · rw [if_neg hskip]
        have hg : ¬(depth > cfg.crawl_depth ∨
            url ∈ (⟨st.visited, st.cache, st.trace ++ [Event.dequeue url depth]⟩ : St).visited) := by
          push_neg at hskip ⊢
          exact ⟨hskip.2, hskip.1⟩
        obtain ⟨c2, revs, fp, data, heq, hrevs, hfp, hdata⟩ := crawl_url_go hg
        rw [heq]
        rcases hdata with rfl | ⟨pd, bb, rfl, hfetch, hex⟩
        · intro a ha
          exact ih _ _ _ (List.mem_cons_of_mem _ ha)
        · intro a ha
          exact ih _ _ _ (List.mem_cons_of_mem _ ha)

/-- The fetch invariant: every URL with a fetch attempt in the trace is in
the visited set, and no URL accumulates more than one fetch attempt. -/
theorem crawlLoop_fetch_inv (w : World) (cfg : Config) :
    ∀ (fuel : Nat) (st : St) (res : List (String × PageData)) (q : List (String × Nat)),
      (∀ u, 1 ≤ fetchCount st.trace u → u ∈ st.visited) →
      (∀ u, fetchCount st.trace u ≤ 1) →
      (∀ u, 1 ≤ fetchCount (crawlLoop w cfg fuel st res q).1.trace u →
          u ∈ (crawlLoop w cfg fuel st res q).1.visited) ∧
      (∀ u, fetchCount (crawlLoop w cfg fuel st res q).1.trace u ≤ 1) := by
  intro fuel
  induction fuel with
  | zero => intro st res q hA hB; exact ⟨hA, hB⟩
  | succ fuel ih =>
    intro st res q hA hB
    rcases q with _ | ⟨⟨url, depth⟩, rest⟩
    · exact ⟨hA, hB⟩
    · simp only [crawlLoop]
      by_cases hskip : url ∈ st.visited ∨ depth > cfg.crawl_depth
      · rw [if_pos hskip]
        refine ih _ _ _ ?_ ?_ <;> intro u <;>
          simp only [fetchCount_append] <;>
          simp only [show fetchCount [Event.dequeue url depth] u = 0 from rfl, Nat.add_zero]
        · exact hA u
        · exact hB u
      · rw [if_neg hskip]
        have hg : ¬(depth > cfg.crawl_depth ∨
            url ∈ (⟨st.visited, st.cache, st.trace ++ [Event.dequeue url depth]⟩ : St).visited) := by
          push_neg at hskip ⊢
          exact ⟨hskip.2, hskip.1⟩
        obtain ⟨c2, revs, fp, data, heq, hrevs, hfp, hdata⟩ := crawl_url_go hg
        rw [heq]
        have hurl : url ∉ st.visited := by
          push_neg at hskip
          exact hskip.1
        have hcount : ∀ u, fetchCount ((st.trace ++ [Event.dequeue url depth]) ++
            Event.visit url :: (revs ++ fp)) u =
            fetchCount st.trace u + fetchCount fp u := by
          intro u
          rw [fetchCount_append, fetchCount_append]
          have h1 : fetchCount [Event.dequeue url depth] u = 0 := rfl
          have h2 : fetchCount (Event.visit url :: (revs ++ fp)) u =
              fetchCount (revs ++ fp) u := rfl
          rw [h1, h2, fetchCount_append, fetchCount_robots_only hrevs]
          omega
        have hfpcount : ∀ u, fetchCount fp u ≤ 1 ∧ (1 ≤ fetchCount fp u → u = url) := by
          intro u
          rcases hfp with rfl | rfl
          · exact ⟨Nat.zero_le 1, fun hcontra => absurd hcontra (by simp [fetchCount])⟩
          · constructor
            · by_cases hu : url = u <;> simp [fetchCount, hu]
            · intro h1
              by_cases hu : url = u
              · exact hu.symm
              · exact absurd h1 (by simp [fetchCount, hu])
        have hA1 : ∀ u, 1 ≤ fetchCount ((st.trace ++ [Event.dequeue url depth]) ++
            Event.visit url :: (revs ++ fp)) u → u ∈ url :: st.visited := by
          intro u hu
          rw [hcount u] at hu
          by_cases hold : 1 ≤ fetchCount st.trace u
          · exact List.mem_cons_of_mem _ (hA u hold)
          · have : 1 ≤ fetchCount fp u := by omega
            rw [(hfpcount u).2 this]
            exact List.mem_cons_self _ _
        have hB1 : ∀ u, fetchCount ((st.trace ++ [Event.dequeue url depth]) ++
            Event.visit url :: (revs ++ fp)) u ≤ 1 := by
          intro u
          rw [hcount u]
          by_cases hu : u = url
          · subst hu
            have hz : fetchCount st.trace u = 0 := by
              by_contra hc
              exact hurl (hA u (by omega))
            have := (hfpcount u).1
            omega
          · have hz : fetchCount fp u = 0 := by
              by_contra hc
              exact hu ((hfpcount u).2 (by omega))
            have := hB u
            omega
        rcases hdata with rfl | ⟨pd, bb, rfl, hfetch, hex⟩
        · exact ih _ _ _ hA1 hB1
        · exact ih _ _ _ hA1 hB1

/-- The trace always passes the visited-before-fetch check. -/
theorem crawlLoop_vbf (w : World) (cfg : Config) :
    ∀ (fuel : Nat) (st : St) (res : List (String × PageData)) (q : List (String × Nat)),
      vbfAux st.trace [] = true →
      vbfAux (crawlLoop w cfg fuel st res q).1.trace [] = true := by
  intro fuel
  induction fuel with
  | zero => intro st res q h; exact h
  | succ fuel ih =>
    intro st res q h
    rcases q with _ | ⟨⟨url, depth⟩, rest⟩
    · exact h
    · simp only [crawlLoop]
      have hdq : vbfAux (st.trace ++ [Event.dequeue url depth]) [] = true := by
        rw [vbfAux_append, h]
        rfl
      by_cases hskip : url ∈ st.visited ∨ depth > cfg.crawl_depth
      · rw [if_pos hskip]
        exact ih _ _ _ hdq
      · rw [if_neg hskip]
        have hg : ¬(depth > cfg.crawl_depth ∨
            url ∈ (⟨st.visited, st.cache, st.trace ++ [Event.dequeue url depth]⟩ : St).visited) := by
          push_neg at hskip ⊢
          exact ⟨hskip.2, hskip.1⟩
        obtain ⟨c2, revs, fp, data, heq, hrevs, hfp, hdata⟩ := crawl_url_go hg
        rw [heq]
        have hnew : vbfAux ((st.trace ++ [Event.dequeue url depth]) ++
            Event.visit url :: (revs ++ fp)) [] = true := by
          rw [vbfAux_append, hdq, vbfAux_chunk url revs fp _ hrevs hfp]
          rfl
        rcases hdata with rfl | ⟨pd, bb, rfl, hfetch, hex⟩
        · exact ih _ _ _ hnew
        · exact ih _ _ _ hnew

/-- Results soundness: every entry of the returned dictionary is the
successful extraction of an HTTP-200 body fetched for its key. -/
theorem crawlLoop_results_sound (w : World) (cfg : Config) :
    ∀ (fuel : Nat) (st : St) (res : List (String × PageData)) (q : List (String × Nat)),
      (∀ u pd, (u, pd) ∈ res → ∃ b, w.fetch u = FetchResult.ok 200 b ∧
        extract_content cfg u b = Except.ok pd) →
      ∀ u pd, (u, pd) ∈ (crawlLoop w cfg fuel st res q).2 →
        ∃ b, w.fetch u = FetchResult.ok 200 b ∧ extract_content cfg u b = Except.ok pd := by
  intro fuel
  induction fuel with
  | zero => intro st res q h; exact h
  | succ fuel ih =>
    intro st res q h
    rcases q with _ | ⟨⟨url, depth⟩, rest⟩
    · exact h
    · simp only [crawlLoop]
      by_cases hskip : url ∈ st.visited ∨ depth > cfg.crawl_depth
      · rw [if_pos hskip]
        exact ih _ _ _ (by simpa using h)
      · rw [if_neg hskip]
        have hg : ¬(depth > cfg.crawl_depth ∨
            url ∈ (⟨st.visited, st.cache, st.trace ++ [Event.dequeue url depth]⟩ : St).visited) := by
          push_neg at hskip ⊢
          exact ⟨hskip.2, hskip.1⟩
        obtain ⟨c2, revs, fp, data, heq, hrevs, hfp, hdata⟩ := crawl_url_go hg
        rw [heq]
        rcases hdata with rfl | ⟨pd, bb, rfl, hfetch, hex⟩
        · exact ih _ _ _ (by simpa using h)
        · refine ih _ _ _ ?_
          intro u pd0 hmem
          rcases List.mem_append.mp hmem with hold | hnew
          · exact h u pd0 hold
          · simp only [List.mem_singleton, Prod.mk.injEq] at hnew
            obtain ⟨rfl, rfl⟩ := hnew
            exact ⟨bb, hfetch, hex⟩

/-- Reachability invariant: every queue entry is reachable at its recorded
depth, so every result key is reachable within the depth bound. -/
theorem crawlLoop_reach (w : World) (cfg : Config) (seed : String) :
    ∀ (fuel : Nat) (st : St) (res : List (String × PageData)) (q : List (String × Nat)),
      (∀ x ∈ q, Reach w cfg seed x.1 x.2) →
      (∀ x ∈ res, ∃ n, n ≤ cfg.crawl_depth ∧ Reach w cfg seed x.1 n) →
      ∀ x ∈ (crawlLoop w cfg fuel st res q).2,
        ∃ n, n ≤ cfg.crawl_depth ∧ Reach w cfg seed x.1 n := by
  intro fuel
  induction fuel with
  | zero => intro st res q _ hres; exact hres
  | succ fuel ih =>
    intro st res q hq hres
    rcases q with _ | ⟨⟨url, depth⟩, rest⟩
    · exact hres
    · simp only [crawlLoop]
      by_cases hskip : url ∈ st.visited ∨ depth > cfg.crawl_depth
      · rw [if_pos hskip]
        exact ih _ _ _ (fun x hx => hq x (List.mem_cons_of_mem _ hx)) hres
      · rw [if_neg hskip]
        have hg : ¬(depth > cfg.crawl_depth ∨
            url ∈ (⟨st.visited, st.cache, st.trace ++ [Event.dequeue url depth]⟩ : St).visited) := by
          push_neg at hskip ⊢
          exact ⟨hskip.2, hskip.1⟩
        have hdepth : depth ≤ cfg.crawl_depth := by
          push_neg at hskip
          omega
        have hreach : Reach w cfg seed url depth :=
          hq (url, depth) (List.mem_cons_self _ _)
        obtain ⟨c2, revs, fp, data, heq, hrevs, hfp, hdata⟩ := crawl_url_go hg
        rw [heq]
        rcases hdata with rfl | ⟨pd, bb, rfl, hfetch, hex⟩
        · exact ih _ _ _ (fun x hx => hq x (List.mem_cons_of_mem _ hx)) (by simpa using hres)
        · refine ih _ _ _ ?_ ?_
          · intro x hx
            rcases List.mem_append.mp hx with hrest | hpush
            · exact hq x (List.mem_cons_of_mem _ hrest)
            · obtain ⟨l, hl, rfl⟩ := List.mem_map.mp hpush
              have hlink : l ∈ pd.links := List.mem_of_mem_filter hl
              exact Reach.step hreach ⟨bb, pd, hfetch, hex, hlink⟩
          · intro x hx
            rcases List.mem_append.mp hx with hold | hnew
            · exact hres x hold
            · simp only [List.mem_singleton] at hnew
              subst hnew
              exact ⟨depth, hdepth, hreach⟩

theorem sorted_le_append {a b : List Nat}
    (ha : List.Sorted (· ≤ ·) a) (hb : List.Sorted (· ≤ ·) b)
    (hab : ∀ x ∈ a, ∀ y ∈ b, x ≤ y) :
    List.Sorted (· ≤ ·) (a ++ b) :=
  List.pairwise_append.mpr ⟨ha, hb, hab⟩

theorem sorted_of_all_eq {l : List Nat} {k : Nat} (h : ∀ a ∈ l, a = k) :
    List.Sorted (· ≤ ·) l := by
  induction l with
  | nil => exact List.sorted_nil
  | cons a tl ih =>
    rw [List.sorted_cons]
    refine ⟨fun b hb => ?_, ih (fun b hb => h b (List.mem_cons_of_mem _ hb))⟩
    rw [h a (List.mem_cons_self _ _), h b (List.mem_cons_of_mem _ hb)]

theorem dequeueDepths_chunk (url : String) {revs fp : List Event}
    (hrevs : ∀ e ∈ revs, ∃ o, e = Event.robotsFetch o)
    (hfp : fp = [] ∨ fp = [Event.fetchAttempt url]) :
    dequeueDepths (Event.visit url :: (revs ++ fp)) = [] := by
  show dequeueDepths (revs ++ fp) = []
  rw [dequeueDepths_append, dequeueDepths_robots_only hrevs]
  rcases hfp with rfl | rfl <;> rfl

/-- BFS ordering invariant: with a depth-sorted frontier whose depths span
at most two consecutive levels and dominate all past dequeues, the dequeue
depths recorded in the trace stay sorted. -/
theorem crawlLoop_sorted_dequeue (w : World) (cfg : Config) :
    ∀ (fuel : Nat) (st : St) (res : List (String × PageData)) (q : List (String × Nat)),
      List.Sorted (· ≤ ·) (dequeueDepths st.trace) →
      (∀ d ∈ dequeueDepths st.trace, ∀ x ∈ q, d ≤ x.2) →
      List.Sorted (· ≤ ·) (q.map Prod.snd) →
      (∀ a ∈ q, ∀ b ∈ q, a.2 ≤ b.2 + 1) →
      List.Sorted (· ≤ ·) (dequeueDepths (crawlLoop w cfg fuel st res q).1.trace) := by
  intro fuel
  induction fuel with
  | zero => intro st res q h1 _ _ _; exact h1
  | succ fuel ih =>
    intro st res q h1 h2 h3 h4
    rcases q with _ | ⟨⟨url, depth⟩, rest⟩
    · exact h1
    · simp only [crawlLoop]
      have hdd : dequeueDepths (st.trace ++ [Event.dequeue url depth]) =
          dequeueDepths st.trace ++ [depth] := by
        rw [dequeueDepths_append]
        rfl
      have h3c := h3
      rw [List.map_cons, List.sorted_cons] at h3c
      have hrest_le : ∀ x ∈ rest, depth ≤ x.2 := fun x hx =>
        h3c.1 x.2 (List.mem_map.mpr ⟨x, hx, rfl⟩)
      have hrest_sorted : List.Sorted (· ≤ ·) (rest.map Prod.snd) := h3c.2
      have hrest_win : ∀ x ∈ rest, x.2 ≤ depth + 1 := fun x hx =>
        h4 x (List.mem_cons_of_mem _ hx) (url, depth) (List.mem_cons_self _ _)
      have h1' : List.Sorted (· ≤ ·)
          (dequeueDepths (st.trace ++ [Event.dequeue url depth])) := by
        rw [hdd]
        refine sorted_le_append h1 (List.sorted_singleton _) (fun a ha b hb => ?_)
        rw [List.mem_singleton.mp hb]
        exact h2 a ha (url, depth) (List.mem_cons_self _ _)
      have h2rest : ∀ d ∈ dequeueDepths (st.trace ++ [Event.dequeue url depth]),
          ∀ x ∈ rest, d ≤ x.2 := by
        intro d hd x hx
        rw [hdd] at hd
        rcases List.mem_append.mp hd with hold | hnew
        · exact h2 d hold x (List.mem_cons_of_mem _ hx)
        · rw [List.mem_singleton.mp hnew]
          exact hrest_le x hx
      have h4rest : ∀ a ∈ rest, ∀ b ∈ rest, a.2 ≤ b.2 + 1 := fun a ha b hb =>
        h4 a (List.mem_cons_of_mem _ ha) b (List.mem_cons_of_mem _ hb)
      by_cases hskip : url ∈ st.visited ∨ depth > cfg.crawl_depth
      · rw [if_pos hskip]
        exact ih _ _ _ h1' h2rest hrest_sorted h4rest
      · rw [if_neg hskip]
        have hg : ¬(depth > cfg.crawl_depth ∨
            url ∈ (⟨st.visited, st.cache, st.trace ++ [Event.dequeue url depth]⟩ : St).visited) := by
          push_neg at hskip ⊢
          exact ⟨hskip.2, hskip.1⟩
        obtain ⟨c2, revs, fp, data, heq, hrevs, hfp, hdata⟩ := crawl_url_go hg
        rw [heq]
        have hddchunk : dequeueDepths ((st.trace ++ [Event.dequeue url depth]) ++
            Event.visit url :: (revs ++ fp)) =
            dequeueDepths st.trace ++ [depth] := by
          rw [dequeueDepths_append, dequeueDepths_chunk url hrevs hfp, hdd, List.append_nil]
        have h1n : List.Sorted (· ≤ ·) (dequeueDepths ((st.trace ++ [Event.dequeue url depth]) ++
            Event.visit url :: (revs ++ fp))) := by
          rw [hddchunk, ← hdd]
          exact h1'
        have h2n : ∀ d ∈ dequeueDepths ((st.trace ++ [Event.dequeue url depth]) ++
            Event.visit url :: (revs ++ fp)), ∀ x ∈ rest, d ≤ x.2 := by
          intro d hd
          rw [hddchunk, ← hdd] at hd
          exact h2rest d hd
        rcases hdata with rfl | ⟨pd, bb, rfl, hfetch, hex⟩
        · exact ih _ _ _ h1n h2n hrest_sorted h4rest
        · have hpush : ∀ x ∈ (pd.links.filter
              (fun l => decide (l ∉ url :: st.visited))).map (fun l => (l, depth + 1)),
              x.2 = depth + 1 := by
            intro x hx
            obtain ⟨l, _, rfl⟩ := List.mem_map.mp hx
            rfl
          refine ih _ _ _ h1n ?_ ?_ ?_
          · intro d hd x hx
            rcases List.mem_append.mp hx with hx | hx
            · exact h2n d hd x hx
            · rw [hpush x hx]
              rw [hddchunk] at hd
              rcases List.mem_append.mp hd with hold | hnew
              · exact Nat.le_succ_of_le (h2 d hold (url, depth) (List.mem_cons_self _ _))
              · rw [List.mem_singleton.mp hnew]
                exact Nat.le_succ depth
          · rw [List.map_append]
            refine sorted_le_append hrest_sorted ?_ ?_
            · refine sorted_of_all_eq (k := depth + 1) ?_
              intro a ha
              obtain ⟨x, hx, rfl⟩ := List.mem_map.mp ha
              exact hpush x hx
            · intro a ha b hb
              obtain ⟨x, hx, rfl⟩ := List.mem_map.mp ha
              obtain ⟨y, hy, rfl⟩ := List.mem_map.mp hb
              rw [hpush y hy]
              exact hrest_win x hx
          · intro a ha b hb
            rcases List.mem_append.mp ha with ha | ha <;>
              rcases List.mem_append.mp hb with hb | hb
            · exact h4rest a ha b hb
            · rw [hpush b hb]
              exact Nat.le_succ_of_le (hrest_win a ha)
            · rw [hpush a ha]
              exact Nat.succ_le_succ (hrest_le b hb)
            · rw [hpush a ha, hpush b hb]
              exact Nat.le_succ _

theorem fetchCount_pos_of_mem {tr : List Event} {u : String}
    (h : Event.fetchAttempt u ∈ tr) : 1 ≤ fetchCount tr u := by
  induction tr with
  | nil => cases h
  | cons e rest ih =>
    rcases List.mem_cons.mp h with he | hrest
    · rw [← he]
      simp [fetchCount]
    · cases e with
      | fetchAttempt v =>
        have := ih hrest
        simp only [fetchCount]
        omega
      | visit v => exact ih hrest
      | robotsFetch o => exact ih hrest
      | dequeue v d => exact ih hrest

/-! ## Lemmas: agent context bounds -/

theorem truncated_length_le (s : String) (n : Nat) :
    (if s.length > n then pyTake n s ++ "..." else s).length ≤ n + 3 := by
  split
  · rw [String.length_append]
    have h1 : (pyTake n s).length ≤ n := by
      show (String.mk (s.toList.take n)).length ≤ n
      rw [String.length_mk]
      exact List.length_take_le _ _
    have h2 : ("..." : String).length = 3 := rfl
    omega
  · rename_i hle
    omega

theorem kb_query_length_le (chroma : String → Nat → Option ChromaResult)
    (q : String) (n : Nat)
    (h : ∀ res, chroma q n = some res → res.documents.length ≤ n) :
    (kb_query chroma q n).length ≤ n := by
  unfold kb_query
  cases hc : chroma q n with
  | none => simp
  | some res =>
    rw [List.length_map, List.enum_length]
    exact h res hc

/-! ## The claims -/

/-- C1 (Visited-once): in every `crawl(seedUrl)` call — for any network
behaviour, configuration, session cache and fuel — at most one page-fetch
attempt (HTTP GET) is issued per URL, even if the URL is discovered via
multiple pages; and every fetch attempt for a URL is preceded in the
trace by that URL's insertion into the visited set (the trace passes the
visited-before-fetch check `vbfAux`). -/
theorem C1_visited_once (w : World) (cfg : Config) (cache : Cache) (fuel : Nat)
    (seed_url : String) :
    (∀ u, fetchCount (crawl w cfg cache fuel seed_url).1.trace u ≤ 1) ∧
    vbfAux (crawl w cfg cache fuel seed_url).1.trace [] = true := by
  unfold crawl
  constructor
  · exact (crawlLoop_fetch_inv w cfg fuel ⟨[], cache, []⟩ [] [(seed_url, 0)]
      (fun u h => by simp [fetchCount] at h)
      (fun u => by simp [fetchCount])).2
  · exact crawlLoop_vbf w cfg fuel ⟨[], cache, []⟩ [] [(seed_url, 0)] rfl

/-- C2 (Depth bound): every URL that appears as a key of the returned
crawl result was reached from the seed via a link path of length at most
the mode-resolved maximum crawl depth; contrapositively, no URL whose
every discovery path exceeds that depth appears in the result. -/
theorem C2_depth_bound (w : World) (rr : Bool) (depth limit : Nat) (mode : String)
    (cache : Cache) (fuel : Nat) (seed_url : String) :
    ∀ url pd,
      (url, pd) ∈ (crawl w (mkCrawler rr depth limit mode) cache fuel seed_url).2 →
      ∃ n, n ≤ (mkCrawler rr depth limit mode).crawl_depth ∧
        Reach w (mkCrawler rr depth limit mode) seed_url url n := by
  intro url pd h
  unfold crawl at h
  exact crawlLoop_reach w (mkCrawler rr depth limit mode) seed_url fuel
    ⟨[], cache, []⟩ [] [(seed_url, 0)]
    (fun x hx => by rw [List.mem_singleton.mp hx]; exact Reach.refl)
    (fun x hx => absurd hx (List.not_mem_nil x))
    (url, pd) h

theorem C2_depth_bound_witness :
    ∃ n, n ≤ (mkCrawler false 3 5 "stealth").crawl_depth ∧
      Reach wEmptySite (mkCrawler false 3 5 "stealth") "https://s.test/"
        "https://s.test/" n :=
  C2_depth_bound wEmptySite false 3 5 "stealth" [] 5 "https://s.test/"
    "https://s.test/" emptyPage (by decide)

/-- C3 (code bug): `extract_content` is not total — on the well-formed
input `<meta name="description">` (a meta description tag without a
`content` attribute) the Python code raises `KeyError`, because
`soup.find("meta", attrs={"name": "description"})["content"]` guards only
the presence of the tag, not of the attribute.  The embedding evaluates
the code at the failing input and shows the raising branch is taken. -/
theorem C3_extract_keyerror :
    extract_content cfgNoRobots "https://ex.test/"
      "<meta name=\"description\">" = Except.error "KeyError: content" := by
  rfl

/-- C4 counterexample: the claim "subsequent `isAllowed` calls for the
same origin perform no re-fetch, regardless of whether the first fetch
succeeded or failed" is false: with a failing robots endpoint, two
queries for the same origin both fetch robots.txt — the code caches only
successful fetches. -/
theorem C4_cache_counterexample :
    robotsFetchCount (runSession wRobotsDown cfgRobots []
      ["https://e.test/x", "https://e.test/y"]).2 "https://e.test" = 2 ∧
    ¬ robotsFetchCount (runSession wRobotsDown cfgRobots []
      ["https://e.test/x", "https://e.test/y"]).2 "https://e.test" ≤ 1 := by
  constructor
  · rfl
  · intro h
    exact absurd h (by decide)

/-- C4 amended (Robots cache): only the first *successful* robots.txt
fetch for an origin is cached; within one session starting from an empty
cache, if the robots fetch+parse for an origin succeeds, at most one
robots.txt fetch for that origin is performed across any sequence of
`isAllowed` calls (after a failed fetch the result is not cached and the
next query for that origin fetches again, per the counterexample). -/
theorem C4_robots_cache_amended (w : World) (cfg : Config) (o : String)
    (r : String → Bool) (urls : List String)
    (hw : w.robots o = Except.ok r) :
    robotsFetchCount (runSession w cfg [] urls).2 o ≤ 1 :=
  (runSession_robots_once hw urls []).1 rfl

theorem C4_robots_cache_amended_witness :
    robotsFetchCount (runSession wEmptySite cfgRobots []
      ["https://e.test/x", "https://e.test/y"]).2 "https://e.test" ≤ 1 :=
  C4_robots_cache_amended wEmptySite cfgRobots "https://e.test" (fun _ => true)
    ["https://e.test/x", "https://e.test/y"] rfl

/-- C5 (Fail-open robots): when the robots.txt fetch+parse for a URL's
origin fails (and the origin is not already cached, i.e. the fetch
actually happens), `is_allowed` returns true; and with `respect_robots`
false, `is_allowed` returns true for every URL. -/
theorem C5_fail_open :
    (∀ (w : World) (cfg : Config) (cache : Cache) (url : String),
      List.lookup ((urlparse url).scheme ++ "://" ++ (urlparse url).netloc) cache = none →
      w.robots ((urlparse url).scheme ++ "://" ++ (urlparse url).netloc) =
        Except.error () →
      (is_allowed w cfg cache url).1 = true) ∧
    (∀ (w : World) (cfg : Config) (cache : Cache) (url : String),
      cfg.respect_robots = false → (is_allowed w cfg cache url).1 = true) := by
  constructor
  · intro w cfg cache url hmiss herr
    simp only [is_allowed]
    by_cases hrr : cfg.respect_robots = false
    · rw [if_pos hrr]
    · rw [if_neg hrr]
      simp only [hmiss, herr]
  · intro w cfg cache url hrr
    simp only [is_allowed]
    rw [if_pos hrr]

theorem C5_fail_open_witness :
    (is_allowed wRobotsDown cfgRobots [] "https://e.test/x").1 = true ∧
    (is_allowed wEmptySite cfgNoRobots [] "https://e.test/x").1 = true :=
  ⟨C5_fail_open.1 wRobotsDown cfgRobots [] "https://e.test/x" rfl rfl,
   C5_fail_open.2 wEmptySite cfgNoRobots [] "https://e.test/x" rfl⟩

/-- C6 (BFS ordering): in every crawl the recorded dequeue depths are
non-decreasing — all URLs at depth `d` are dequeued and processed before
any URL at depth `d + 1` is dequeued; and on the concrete site where the
seed links to `/a` and `/b` and `/a` links to `/c`, the visit order is
seed, then `/a`, `/b`, then `/c`. -/
theorem C6_bfs_ordering :
    (∀ (w : World) (cfg : Config) (cache : Cache) (fuel : Nat) (seed_url : String),
      List.Sorted (· ≤ ·)
        (dequeueDepths (crawl w cfg cache fuel seed_url).1.trace)) ∧
    visitList (crawl wSite cfgNoRobots [] 10 "https://s.test/").1.trace =
      ["https://s.test/", "https://s.test/a", "https://s.test/b",
        "https://s.test/c"] := by
  constructor
  · intro w cfg cache fuel seed_url
    unfold crawl
    refine crawlLoop_sorted_dequeue w cfg fuel ⟨[], cache, []⟩ [] [(seed_url, 0)]
      List.sorted_nil ?_ (List.sorted_singleton 0) ?_
    · intro d hd
      simp [dequeueDepths] at hd
    · intro a ha b hb
      rw [List.mem_singleton.mp ha, List.mem_singleton.mp hb]
      exact Nat.le_succ 0
  · rfl

/-- C7 (Link-limit and order): every page recorded in the crawl result
has as its `links` field exactly the first `link_limit` (mode-resolved)
qualifying internal links of the fetched page in document order, hence at
most `link_limit` links. -/
theorem C7_link_limit (w : World) (rr : Bool) (depth limit : Nat) (mode : String)
    (cache : Cache) (fuel : Nat) (seed_url : String) :
    ∀ url pd,
      (url, pd) ∈ (crawl w (mkCrawler rr depth limit mode) cache fuel seed_url).2 →
      ∃ b, w.fetch url = FetchResult.ok 200 b ∧
        pd.links = (((anchorTags (parseHtml b)).map
            (fun e => urljoin url ((getAttr e "href").getD ""))).filter
            (qualifies (urlparse url).netloc)).take
              (mkCrawler rr depth limit mode).link_limit ∧
        pd.links.length ≤ (mkCrawler rr depth limit mode).link_limit := by
  intro url pd h
  unfold crawl at h
  obtain ⟨b, hf, he⟩ := crawlLoop_results_sound w (mkCrawler rr depth limit mode)
    fuel ⟨[], cache, []⟩ [] [(seed_url, 0)]
    (fun u pd0 hmem => absurd hmem (List.not_mem_nil _)) url pd h
  refine ⟨b, hf, ?_, ?_⟩
  · rw [extract_ok_links he, linkLoop_eq]
  · rw [extract_ok_links he]
    exact List.length_take_le _ _

theorem C7_link_limit_witness :
    ∃ b, wSite.fetch "https://s.test/" = FetchResult.ok 200 b ∧
      pageS.links = (((anchorTags (parseHtml b)).map
          (fun e => urljoin "https://s.test/" ((getAttr e "href").getD ""))).filter
          (qualifies (urlparse "https://s.test/").netloc)).take
            (mkCrawler false 3 5 "stealth").link_limit ∧
      pageS.links.length ≤ (mkCrawler false 3 5 "stealth").link_limit :=
  C7_link_limit wSite false 3 5 "stealth" [] 10 "https://s.test/"
    "https://s.test/" pageS (by decide)

/-- C8 (Per-URL failure semantics): a URL whose fetch returns a non-200
status, raises a transport error, or whose extraction raises, is absent
from the returned result map, and if its fetch was attempted it remains
in the visited set (so, with C1's at-most-one-fetch bound, it is never
retried within the same crawl); `crawl` is total and still returns a
(possibly empty) map. -/
theorem C8_per_url_failure (w : World) (cfg : Config) (cache : Cache) (fuel : Nat)
    (seed_url url : String) (h : fetchFails w cfg url) :
    (∀ pd, (url, pd) ∉ (crawl w cfg cache fuel seed_url).2) ∧
    (Event.fetchAttempt url ∈ (crawl w cfg cache fuel seed_url).1.trace →
      url ∈ (crawl w cfg cache fuel seed_url).1.visited) := by
  constructor
  · intro pd hmem
    unfold crawl at hmem
    obtain ⟨b, hf, he⟩ := crawlLoop_results_sound w cfg fuel ⟨[], cache, []⟩ []
      [(seed_url, 0)] (fun u pd0 hmem0 => absurd hmem0 (List.not_mem_nil _))
      url pd hmem
    unfold fetchFails at h
    rw [hf] at h
    rcases h with h | ⟨e, herr⟩
    · exact h rfl
    · rw [he] at herr
      exact Except.noConfusion herr
  · intro htr
    unfold crawl at htr ⊢
    exact (crawlLoop_fetch_inv w cfg fuel ⟨[], cache, []⟩ [] [(seed_url, 0)]
      (fun u h0 => by simp [fetchCount] at h0)
      (fun u => by simp [fetchCount])).1 url (fetchCount_pos_of_mem htr)

theorem C8_per_url_failure_witness :
    (∀ pd, ("https://s.test/", pd) ∉
      (crawl wAll404 cfgNoRobots [] 5 "https://s.test/").2) ∧
    (Event.fetchAttempt "https://s.test/" ∈
        (crawl wAll404 cfgNoRobots [] 5 "https://s.test/").1.trace →
      "https://s.test/" ∈ (crawl wAll404 cfgNoRobots [] 5 "https://s.test/").1.visited) :=
  C8_per_url_failure wAll404 cfgNoRobots [] 5 "https://s.test/" "https://s.test/"
    (Or.inl (by decide))

set_option maxRecDepth 10000 in
/-- C9 counterexample: the claim "content previews are at most 500
characters" is false — a 501-character page content yields a preview of
`content[:500] + "..."`, i.e. 503 characters (similarly knowledge-store
excerpts reach 1003). -/
theorem C9_context_counterexample :
    (prepare_context "q" [("https://e.test/", page501)] []).pages.map
      (fun p => p.content_preview.length) = [503] ∧
    ¬ (∀ p ∈ (prepare_context "q" [("https://e.test/", page501)] []).pages,
        p.content_preview.length ≤ 500) := by
  constructor
  · rfl
  · intro hall
    have hmem : (⟨"https://e.test/", page501.title,
        pyTake 500 page501.content ++ "...", page501.links.length⟩ : PageSummary) ∈
        (prepare_context "q" [("https://e.test/", page501)] []).pages := by
      decide
    have := hall _ hmem
    revert this
    decide

/-- C9 amended (Report context bounds): for every query, crawled-data map
and knowledge store honouring its `n_results` bound, the context handed
to the report generator contains at most 10 page summaries whose content
previews are at most 503 characters each (500 content characters plus the
appended `"..."`), and at most 5 knowledge-store excerpts of at most 1003
characters each (1000 plus `"..."`). -/
theorem C9_context_bounds_amended (chroma : String → Nat → Option ChromaResult)
    (q : String) (crawled : List (String × PageData))
    (h : ∀ res, chroma q 5 = some res → res.documents.length ≤ 5) :
    (analyze_context chroma q crawled).pages.length ≤ 10 ∧
    (∀ p ∈ (analyze_context chroma q crawled).pages,
      p.content_preview.length ≤ 503) ∧
    (analyze_context chroma q crawled).relevant_documents.length ≤ 5 ∧
    (∀ d ∈ (analyze_context chroma q crawled).relevant_documents,
      d.1.length ≤ 1003) := by
  refine ⟨?_, ?_, ?_, ?_⟩
  · show ((crawled.take 10).map _).length ≤ 10
    rw [List.length_map]
    exact List.length_take_le _ _
  · intro p hp
    obtain ⟨⟨u0, pd0⟩, _, rfl⟩ := List.mem_map.mp hp
    exact truncated_length_le pd0.content 500
  · show ((kb_query chroma q 5).map _).length ≤ 5
    rw [List.length_map]
    exact kb_query_length_le chroma q 5 h
  · intro d hd
    obtain ⟨d0, _, rfl⟩ := List.mem_map.mp hd
    exact truncated_length_le d0.text 1000

theorem C9_context_bounds_amended_witness :
    (analyze_context chromaNone "" []).pages.length ≤ 10 ∧
    (∀ p ∈ (analyze_context chromaNone "" []).pages,
      p.content_preview.length ≤ 503) ∧
    (analyze_context chromaNone "" []).relevant_documents.length ≤ 5 ∧
    (∀ d ∈ (analyze_context chromaNone "" []).relevant_documents,
      d.1.length ≤ 1003) :=
  C9_context_bounds_amended chromaNone "" []
    (fun _ hres => Option.noConfusion hres)

/-- C10 (anchors are not excluded): on HTML containing an internal anchor
href with a non-empty fragment, the extracted links include the resolved
URL still containing `#`, because the exclusion test checks for `#` in
the parsed URL's *path* while URL parsing places the fragment in a
separate component — so the fragment test excludes no link (second
conjunct: no parsed path ever contains `#`). -/
theorem C10_anchor_fragments :
    (∃ pd, extract_content cfgNoRobots "https://ex.test/"
        "<a href=\"page#section\">x</a>" = Except.ok pd ∧
      "https://ex.test/page#section" ∈ pd.links) ∧
    (∀ s : String, '#' ∉ (urlparse s).path.toList) := by
  constructor
  · exact ⟨⟨"", ["https://ex.test/page#section"], [], [], [], "No title", "", ""⟩,
      rfl, by decide⟩
  · exact urlparse_path_no_hash

end CrawlSpec
